import Mathlib

/-!
Verification of the propositional-logic calculator: the `Expression` AST
(`src/expression.rs`) and the recursive-descent parser. The parser's own
source file is not part of the provided sources (only its test suite is),
so the parser is modelled from the specification's character table,
grammar and algorithm description; definitions modelled that way carry a
doc comment starting with `Modelled from the spec:`.
-/

namespace PropLogic

/-- The `Expression` enum of `src/expression.rs`: AST of propositional
formulas with And/Or/Implies/Not/Var variants. `Rc` sharing is an
ownership optimization in the source; structurally the data is this tree.
(The pointer-level view with sharing is modelled separately as `HNode`
heaps below.) -/
inductive Expression where
  | And : Expression → Expression → Expression
  | Or : Expression → Expression → Expression
  | Implies : Expression → Expression → Expression
  | Not : Expression → Expression
  | Var : String → Expression
deriving DecidableEq

/-- The `Display` implementation of `src/expression.rs`:
`({} & {})`, `({} v {})`, `({} -> {})`, `~{}`, and the bare name. -/
def display : Expression → String
  | .And l r => "(" ++ display l ++ " & " ++ display r ++ ")"
  | .Or l r => "(" ++ display l ++ " v " ++ display r ++ ")"
  | .Implies l r => "(" ++ display l ++ " -> " ++ display r ++ ")"
  | .Not e => "~" ++ display e
  | .Var n => n

/-- The free function `var` of `src/expression.rs`: wraps any string
verbatim in a `Var` node (no validation). -/
def var (name : String) : Expression := .Var name

/-- The free function `not` of `src/expression.rs`. -/
def not (e : Expression) : Expression := .Not e

/-- The method `Expression::and` of `src/expression.rs`. -/
def Expression.and (a b : Expression) : Expression := .And a b

/-- The method `Expression::or` of `src/expression.rs`. -/
def Expression.or (a b : Expression) : Expression := .Or a b

/-- The method `Expression::implies` of `src/expression.rs`. -/
def Expression.implies (a b : Expression) : Expression := .Implies a b

/-- Rust's `Vec::dedup`: removes consecutive duplicate elements
(structural equality), keeping one element of each run. -/
def dedup : List Expression → List Expression
  | [] => []
  | [a] => [a]
  | a :: b :: rest => if a = b then dedup (b :: rest) else a :: dedup (b :: rest)

/-- `Expression::list_expressions` of `src/expression.rs`: pushes the
node itself, extends with the recursively-listed children, and calls
`Vec::dedup` on the result. -/
def Expression.list_expressions : Expression → List Expression
  | .And l r => dedup (.And l r :: (l.list_expressions ++ r.list_expressions))
  | .Or l r => dedup (.Or l r :: (l.list_expressions ++ r.list_expressions))
  | .Implies l r => dedup (.Implies l r :: (l.list_expressions ++ r.list_expressions))
  | .Not e => dedup (.Not e :: e.list_expressions)
  | .Var n => dedup [.Var n]

/-- Specification-side description of the enumeration order: the plain
pre-order listing (self, then each child's own expansion), with no
deduplication at all. -/
def preOrder : Expression → List Expression
  | .And l r => .And l r :: (preOrder l ++ preOrder r)
  | .Or l r => .Or l r :: (preOrder l ++ preOrder r)
  | .Implies l r => .Implies l r :: (preOrder l ++ preOrder r)
  | .Not e => .Not e :: preOrder e
  | .Var n => [.Var n]

lemma head?_dedup (l : List Expression) (a : Expression) :
    (dedup (a :: l)).head? = some a := by
  induction l generalizing a with
  | nil => simp [dedup]
  | cons b l ih =>
    by_cases hab : a = b
    · subst hab
      simp [dedup, ih]
    · simp [dedup, hab]

lemma head?_dedup_eq (l : List Expression) : (dedup l).head? = l.head? := by
  cases l with
  | nil => rfl
  | cons a l => simp [head?_dedup]

lemma dedup_cons (a : Expression) (l : List Expression) :
    dedup (a :: l) = if (dedup l).head? = some a then dedup l else a :: dedup l := by
  cases l with
  | nil => simp [dedup]
  | cons b l' =>
    rw [head?_dedup]
    by_cases hab : a = b
    · subst hab
      simp [dedup]
    · have : (some b = some a) = False := by
        simp [Option.some.injEq]
        exact fun h => hab h.symm
      simp [dedup, hab, this]

lemma dedup_dedup_append (a b : List Expression) :
    dedup (dedup a ++ b) = dedup (a ++ b) := by
  induction a generalizing b with
  | nil => rfl
  | cons x a' ih =>
    rw [dedup_cons x a']
    by_cases h : (dedup a').head? = some x
    · rw [if_pos h, ih]
      have ha : a'.head? = some x := by rw [← head?_dedup_eq]; exact h
      cases a' with
      | nil => simp at ha
      | cons y a'' =>
        have hyx : y = x := by simpa using ha
        subst hyx
        show dedup (y :: a'' ++ b) = dedup (y :: y :: a'' ++ b)
        simp [dedup]
    · rw [if_neg h]
      show dedup (x :: (dedup a' ++ b)) = dedup (x :: (a' ++ b))
      rw [dedup_cons x (dedup a' ++ b), dedup_cons x (a' ++ b), ih]

lemma dedup_mid (c a b : List Expression) :
    dedup (c ++ dedup a ++ b) = dedup (c ++ a ++ b) := by
  induction c with
  | nil => simpa using dedup_dedup_append a b
  | cons x c' ih =>
    simp only [List.cons_append]
    rw [dedup_cons, dedup_cons, ih]

lemma dedup_pair (x : Expression) (a b : List Expression) :
    dedup (x :: (dedup a ++ dedup b)) = dedup (x :: (a ++ b)) := by
  have h1 := dedup_mid [x] a (dedup b)
  have h2 := dedup_mid ([x] ++ a) b []
  simp only [List.cons_append, List.nil_append, List.append_nil, List.append_assoc] at h1 h2
  exact h1.trans h2

lemma dedup_one (x : Expression) (a : List Expression) :
    dedup (x :: dedup a) = dedup (x :: a) := by
  have h := dedup_mid [x] a []
  simpa using h

/-- `list_expressions` computes the pre-order enumeration with adjacent
duplicates removed: the per-level `dedup` calls of the source collapse to
a single `dedup` over the whole pre-order listing. -/
lemma list_expressions_eq_dedup_preOrder (e : Expression) :
    e.list_expressions = dedup (preOrder e) := by
  induction e with
  | And l r ihl ihr =>
    show dedup (_ :: (l.list_expressions ++ r.list_expressions)) = _
    rw [ihl, ihr, dedup_pair]
    rfl
  | Or l r ihl ihr =>
    show dedup (_ :: (l.list_expressions ++ r.list_expressions)) = _
    rw [ihl, ihr, dedup_pair]
    rfl
  | Implies l r ihl ihr =>
    show dedup (_ :: (l.list_expressions ++ r.list_expressions)) = _
    rw [ihl, ihr, dedup_pair]
    rfl
  | Not e ih =>
    show dedup (_ :: e.list_expressions) = _
    rw [ih, dedup_one]
    rfl
  | Var n => rfl

/-- Claim C3: `list_expressions` returns the pre-order enumeration with
exact duplicates removed only when adjacent (structural equality); on
And(Var A, Or(Var B, Var C)) it returns exactly the five entries
[self, Var A, Or(Var B, Var C), Var B, Var C]; duplicates separated by
other entries (here the two occurrences of Var A) are not removed. -/
theorem c3_list_expressions_adjacent_dedup :
    (∀ e : Expression, e.list_expressions = dedup (preOrder e)) ∧
    (Expression.And (.Var "A") (.Or (.Var "B") (.Var "C"))).list_expressions =
      [.And (.Var "A") (.Or (.Var "B") (.Var "C")), .Var "A",
       .Or (.Var "B") (.Var "C"), .Var "B", .Var "C"] ∧
    (Expression.Or (.Var "A") (.And (.Var "B") (.Var "A"))).list_expressions =
      [.Or (.Var "A") (.And (.Var "B") (.Var "A")), .Var "A",
       .And (.Var "B") (.Var "A"), .Var "B", .Var "A"] :=
  ⟨list_expressions_eq_dedup_preOrder, by decide, by decide⟩

/-- Claim C10: for every expression, `list_expressions` is non-empty and
its first element is the receiver itself (the adjacent-only dedup never
removes the head entry). -/
theorem c10_list_expressions_head (e : Expression) :
    e.list_expressions.head? = some e := by
  rw [list_expressions_eq_dedup_preOrder]
  cases e <;> simp [preOrder, head?_dedup]

/-- Claim C4: rendering produces the canonical textual form
`(L & R)`, `(L v R)`, `(L -> R)`, `~E` (no extra parentheses around the
negation's operand) and the bare stored name for `Var`. -/
theorem c4_display_canonical :
    (∀ l r : Expression, display (.And l r) = "(" ++ display l ++ " & " ++ display r ++ ")") ∧
    (∀ l r : Expression, display (.Or l r) = "(" ++ display l ++ " v " ++ display r ++ ")") ∧
    (∀ l r : Expression, display (.Implies l r) = "(" ++ display l ++ " -> " ++ display r ++ ")") ∧
    (∀ e : Expression, display (.Not e) = "~" ++ display e) ∧
    (∀ n : String, display (.Var n) = n) ∧
    display (.Not (.And (.Var "A") (.Var "B"))) = "~(A & B)" ∧
    display (.Implies (.Or (.Var "A") (.Var "B")) (.Not (.Var "C"))) = "((A v B) -> ~C)" :=
  ⟨fun _ _ => rfl, fun _ _ => rfl, fun _ _ => rfl, fun _ => rfl, fun _ => rfl,
   by decide, by decide⟩

/-! ## The parser

`src/parser.rs` is not among the provided sources (only its test suite
`src/tests/parser.rs` is), so the parser is modelled from the spec:
character classification table, precedence grammar
`IMPLIES < OR < AND < NOT < primary`, left-associative loops, and the
whole-input requirement. -/

/-- Token alphabet of the spec's character classification. -/
inductive Tok where
  | tAnd | tOr | tNot | tImp | tLParen | tRParen
  | tVar : Char → Tok
deriving DecidableEq

/-- Modelled from the spec: single-pass character classification.
Uppercase ASCII letter = variable token; `&` AND; `|` or lowercase `v`
OR; `-` NOT; `>` IMPLIES; parentheses group; whitespace is skipped; any
other character makes the whole parse fail. -/
def tokenize : List Char → Option (List Tok)
  | [] => some []
  | c :: cs =>
    if c.isUpper then (tokenize cs).map (Tok.tVar c :: ·)
    else if c = '&' then (tokenize cs).map (Tok.tAnd :: ·)
    else if c = '|' ∨ c = 'v' then (tokenize cs).map (Tok.tOr :: ·)
    else if c = '-' then (tokenize cs).map (Tok.tNot :: ·)
    else if c = '>' then (tokenize cs).map (Tok.tImp :: ·)
    else if c = '(' then (tokenize cs).map (Tok.tLParen :: ·)
    else if c = ')' then (tokenize cs).map (Tok.tRParen :: ·)
    else if c.isWhitespace then tokenize cs
    else none

mutual

/-- Modelled from the spec: the lowest-precedence (IMPLIES) rule of the
recursive-descent parser; parses an OR-level operand and then loops on
`>` left-associatively. The `Nat` argument is fuel: recursion depth is
bounded by the token count, and the top-level entry point supplies
enough fuel that it never runs out (see `c6_roundtrip_and_or_var` where
this is proved for rendered output). -/
def parseExprF : Nat → List Tok → Option (Expression × List Tok)
  | 0, _ => none
  | f+1, toks =>
    match parseOrF f toks with
    | some (e, rest) => impLoopF f e rest
    | none => none

/-- Modelled from the spec: the left-associative loop of the IMPLIES level. -/
def impLoopF : Nat → Expression → List Tok → Option (Expression × List Tok)
  | 0, _, _ => none
  | f+1, acc, toks =>
    match toks with
    | .tImp :: rest =>
      match parseOrF f rest with
      | some (e, rest2) => impLoopF f (.Implies acc e) rest2
      | none => none
    | _ => some (acc, toks)

/-- Modelled from the spec: the OR precedence level. -/
def parseOrF : Nat → List Tok → Option (Expression × List Tok)
  | 0, _ => none
  | f+1, toks =>
    match parseAndF f toks with
    | some (e, rest) => orLoopF f e rest
    | none => none

/-- Modelled from the spec: the left-associative loop of the OR level. -/
def orLoopF : Nat → Expression → List Tok → Option (Expression × List Tok)
  | 0, _, _ => none
  | f+1, acc, toks =>
    match toks with
    | .tOr :: rest =>
      match parseAndF f rest with
      | some (e, rest2) => orLoopF f (.Or acc e) rest2
      | none => none
    | _ => some (acc, toks)

/-- Modelled from the spec: the AND precedence level. -/
def parseAndF : Nat → List Tok → Option (Expression × List Tok)
  | 0, _ => none
  | f+1, toks =>
    match parseNotF f toks with
    | some (e, rest) => andLoopF f e rest
    | none => none

/-- Modelled from the spec: the left-associative loop of the AND level. -/
def andLoopF : Nat → Expression → List Tok → Option (Expression × List Tok)
  | 0, _, _ => none
  | f+1, acc, toks =>
    match toks with
    | .tAnd :: rest =>
      match parseNotF f rest with
      | some (e, rest2) => andLoopF f (.And acc e) rest2
      | none => none
    | _ => some (acc, toks)

/-- Modelled from the spec: the NOT level — `-` is a right-binding
prefix operator applying to the smallest following primary. -/
def parseNotF : Nat → List Tok → Option (Expression × List Tok)
  | 0, _ => none
  | f+1, toks =>
    match toks with
    | .tNot :: rest =>
      match parseNotF f rest with
      | some (e, rest2) => some (.Not e, rest2)
      | none => none
    | _ => parsePrimF f toks

/-- Modelled from the spec: `primary` is a variable token (producing a
one-letter `Var`) or a parenthesized sub-expression requiring a matching
closing parenthesis. -/
def parsePrimF : Nat → List Tok → Option (Expression × List Tok)
  | 0, _ => none
  | f+1, toks =>
    match toks with
    | .tVar c :: rest => some (.Var (String.mk [c]), rest)
    | .tLParen :: rest =>
      match parseExprF f rest with
      | some (e, .tRParen :: rest2) => some (e, rest2)
      | _ => none
    | _ => none

end

/-- Modelled from the spec: `Parser::parse` — tokenize, parse one full
expression, and fail if any tokens remain (trailing input is an error).
The fuel `6 * toks.length + 6` strictly exceeds the recursion depth,
which grows by at most the five-level grammar chain per consumed token. -/
def parseChars (cs : List Char) : Option Expression :=
  match tokenize cs with
  | some toks =>
    match parseExprF (6 * toks.length + 6) toks with
    | some (e, []) => some e
    | _ => none
  | none => none

/-- Modelled from the spec: parsing a source string. -/
def parse (s : String) : Option Expression :=
  parseChars s.data

/-- The 26 uppercase ASCII letters, the legal variable names. -/
def ucLetters : List Char := "ABCDEFGHIJKLMNOPQRSTUVWXYZ".data

/-- Claim C1: the parser partitions inputs exactly as the spec
enumerates — the seven failure inputs all return a syntax error (`none`,
with no partial result) and every input of the success set (each single
uppercase letter plus the enumerated forms) parses successfully. -/
theorem c1_parser_partition :
    parse "" = none ∧ parse "A&" = none ∧ parse "A$B" = none ∧ parse "A&&B" = none ∧
    parse "&|>" = none ∧ parse "A&B#C" = none ∧ parse "(A&B))|(C" = none ∧
    (parse "A&B").isSome = true ∧ (parse "A & B").isSome = true ∧
    (parse "(A & B)").isSome = true ∧ (parse "A|B").isSome = true ∧
    (parse "AvB").isSome = true ∧ (parse "-A").isSome = true ∧
    (parse "-(A&B)").isSome = true ∧ (parse "(((((A))))&B)").isSome = true ∧
    (ucLetters.all fun c => (parse (String.mk [c])).isSome) = true := by decide

/-- Claim C2: parsing each single uppercase letter `X` yields `Var X`;
`"A&B"`, `"A & B"`, `"(A & B)"` all yield And(Var A, Var B); `"A|B"` and
`"AvB"` yield Or(Var A, Var B); `"-A"` yields Not(Var A); `"-(A&B)"`
yields Not(And(Var A, Var B)); `"(((((A))))&B)"` yields
And(Var A, Var B) — whitespace and redundant grouping never change the
resulting tree. -/
theorem c2_parse_canonical_trees :
    (ucLetters.all fun c => parse (String.mk [c]) == some (.Var (String.mk [c]))) = true ∧
    parse "A&B" = some (.And (.Var "A") (.Var "B")) ∧
    parse "A & B" = some (.And (.Var "A") (.Var "B")) ∧
    parse "(A & B)" = some (.And (.Var "A") (.Var "B")) ∧
    parse "A|B" = some (.Or (.Var "A") (.Var "B")) ∧
    parse "AvB" = some (.Or (.Var "A") (.Var "B")) ∧
    parse "-A" = some (.Not (.Var "A")) ∧
    parse "-(A&B)" = some (.Not (.And (.Var "A") (.Var "B"))) ∧
    parse "(((((A))))&B)" = some (.And (.Var "A") (.Var "B")) := by decide

/-- Claim C5: unparenthesized operators bind by the precedence order
IMPLIES < OR < AND < NOT < primary; binary operators chained at one
level are left-associative (`"A & B & C"` parses as And(And A B, C),
likewise for `v` and `>`); NOT binds to the smallest following primary
(`"-A & B"` is And(Not A, B), not Not(And A B)). -/
theorem c5_precedence_associativity :
    parse "A & B & C" = some (.And (.And (.Var "A") (.Var "B")) (.Var "C")) ∧
    parse "AvBvC" = some (.Or (.Or (.Var "A") (.Var "B")) (.Var "C")) ∧
    parse "A>B>C" = some (.Implies (.Implies (.Var "A") (.Var "B")) (.Var "C")) ∧
    parse "-A & B" = some (.And (.Not (.Var "A")) (.Var "B")) ∧
    parse "-A & B" ≠ some (.Not (.And (.Var "A") (.Var "B"))) ∧
    parse "A&BvC" = some (.Or (.And (.Var "A") (.Var "B")) (.Var "C")) ∧
    parse "AvB&C" = some (.Or (.Var "A") (.And (.Var "B") (.Var "C"))) ∧
    parse "AvB>C" = some (.Implies (.Or (.Var "A") (.Var "B")) (.Var "C")) ∧
    parse "A>BvC" = some (.Implies (.Var "A") (.Or (.Var "B") (.Var "C"))) ∧
    parse "-AvB" = some (.Or (.Not (.Var "A")) (.Var "B")) := by decide

/-! ## Round-trip: re-parsing rendered output -/

/-- A name the parser's character table can lex back as a variable:
exactly one uppercase ASCII letter. -/
def okName (s : String) : Bool :=
  match s.data with
  | [c] => c.isUpper
  | _ => false

/-- Expressions built only from And, Or and Var with parseable names —
the fragment whose canonical rendering uses only characters the parser's
classification accepts (`~` and `->`, emitted for Not and Implies, are
rejected characters). -/
def goodAOV : Expression → Bool
  | .And l r => goodAOV l && goodAOV r
  | .Or l r => goodAOV l && goodAOV r
  | .Var n => okName n
  | _ => false

lemma okName_iff (s : String) :
    okName s = true ↔ ∃ c, s.data = [c] ∧ c.isUpper = true := by
  obtain ⟨d⟩ := s
  rcases d with _ | ⟨c, _ | ⟨c2, l⟩⟩ <;> simp [okName]

/-- The token string of an expression's canonical rendering. -/
def etoks : Expression → List Tok
  | .And l r => .tLParen :: (etoks l ++ .tAnd :: (etoks r ++ [.tRParen]))
  | .Or l r => .tLParen :: (etoks l ++ .tOr :: (etoks r ++ [.tRParen]))
  | .Implies l r => .tLParen :: (etoks l ++ .tImp :: (etoks r ++ [.tRParen]))
  | .Not e => .tNot :: etoks e
  | .Var n => n.data.map .tVar

lemma tokenize_append (a b : List Char) :
    tokenize (a ++ b) = (tokenize a).bind fun x => (tokenize b).map (x ++ ·) := by
  induction a with
  | nil =>
    simp only [List.nil_append, tokenize]
    cases tokenize b <;> simp
  | cons c cs ih =>
    simp only [List.cons_append, tokenize, List.append_eq]
    split_ifs <;> (try rw [ih]) <;>
      (cases tokenize cs <;> cases tokenize b <;> simp)

lemma tokenize_display (e : Expression) (h : goodAOV e = true) :
    tokenize (display e).data = some (etoks e) := by
  induction e with
  | And l r ihl ihr =>
    rw [goodAOV, Bool.and_eq_true] at h
    show tokenize ("(" ++ display l ++ " & " ++ display r ++ ")").data = _
    simp only [String.data_append, tokenize_append, ihl h.1, ihr h.2]
    have h1 : tokenize "(".data = some [Tok.tLParen] := by decide
    have h2 : tokenize " & ".data = some [Tok.tAnd] := by decide
    have h3 : tokenize ")".data = some [Tok.tRParen] := by decide
    rw [h1, h2, h3]
    simp [etoks]
  | Or l r ihl ihr =>
    rw [goodAOV, Bool.and_eq_true] at h
    show tokenize ("(" ++ display l ++ " v " ++ display r ++ ")").data = _
    simp only [String.data_append, tokenize_append, ihl h.1, ihr h.2]
    have h1 : tokenize "(".data = some [Tok.tLParen] := by decide
    have h2 : tokenize " v ".data = some [Tok.tOr] := by decide
    have h3 : tokenize ")".data = some [Tok.tRParen] := by decide
    rw [h1, h2, h3]
    simp [etoks]
  | Implies l r ihl ihr => simp [goodAOV] at h
  | Not e ih => simp [goodAOV] at h
  | Var n =>
    rw [goodAOV] at h
    obtain ⟨c, hd, hu⟩ := (okName_iff n).mp h
    have hets : etoks (Expression.Var n) = [Tok.tVar c] := by simp [etoks, hd]
    show tokenize n.data = some (etoks (Expression.Var n))
    rw [hd, hets]
    simp [tokenize, hu]

lemma etoks_head (e : Expression) (h : goodAOV e = true) :
    (∃ ts, etoks e = Tok.tLParen :: ts) ∨ (∃ c ts, etoks e = Tok.tVar c :: ts) := by
  cases e with
  | And l r => exact Or.inl ⟨_, rfl⟩
  | Or l r => exact Or.inl ⟨_, rfl⟩
  | Implies l r => simp [goodAOV] at h
  | Not e => simp [goodAOV] at h
  | Var n =>
    rw [goodAOV] at h
    obtain ⟨c, hd, hu⟩ := (okName_iff n).mp h
    exact Or.inr ⟨c, [], by simp [etoks, hd]⟩

/-- Core round-trip lemma: on the And/Or/Var fragment, the `primary`
rule parses back the rendered token string, leaving the rest untouched,
for any sufficient fuel. -/
lemma parsePrim_etoks (e : Expression) :
    goodAOV e = true → ∀ (rest : List Tok) (f : Nat), 5 * (etoks e).length ≤ f →
      parsePrimF f (etoks e ++ rest) = some (e, rest) := by
  induction e with
  | And l r ihl ihr =>
    intro h rest f hf
    rw [goodAOV, Bool.and_eq_true] at h
    have hlen : (etoks (Expression.And l r)).length
        = (etoks l).length + (etoks r).length + 3 := by simp [etoks]; omega
    rw [hlen] at hf
    have hlist : etoks (Expression.And l r) ++ rest
        = Tok.tLParen :: (etoks l ++ (Tok.tAnd :: (etoks r ++ (Tok.tRParen :: rest)))) := by
      simp [etoks]
    rw [hlist]
    obtain ⟨f, rfl⟩ : ∃ g, f = g + 1 := ⟨f - 1, by omega⟩
    simp only [parsePrimF]
    obtain ⟨f, rfl⟩ : ∃ g, f = g + 1 := ⟨f - 1, by omega⟩
    simp only [parseExprF]
    obtain ⟨f, rfl⟩ : ∃ g, f = g + 1 := ⟨f - 1, by omega⟩
    simp only [parseOrF]
    obtain ⟨f, rfl⟩ : ∃ g, f = g + 1 := ⟨f - 1, by omega⟩
    simp only [parseAndF]
    obtain ⟨f, rfl⟩ : ∃ g, f = g + 1 := ⟨f - 1, by omega⟩
    simp only [parseNotF]
    have hKl := ihl h.1 (Tok.tAnd :: (etoks r ++ (Tok.tRParen :: rest))) f (by omega)
    rcases etoks_head l h.1 with ⟨ts, hts⟩ | ⟨c, ts, hts⟩ <;>
      rw [hts] at hKl ⊢ <;>
      simp only [List.cons_append] at hKl ⊢ <;>
      rw [hKl] <;>
      simp only [andLoopF] <;>
      (obtain ⟨f, rfl⟩ : ∃ g, f = g + 1 := ⟨f - 1, by omega⟩) <;>
      simp only [parseNotF] <;>
      (have hKr := ihr h.2 (Tok.tRParen :: rest) f (by omega)) <;>
      (rcases etoks_head r h.2 with ⟨ts2, hts2⟩ | ⟨c2, ts2, hts2⟩ <;>
        rw [hts2] at hKr ⊢ <;>
        simp only [List.cons_append] at hKr ⊢ <;>
        rw [hKr] <;>
        simp only [andLoopF, orLoopF, impLoopF])
  | Or l r ihl ihr =>
    intro h rest f hf
    rw [goodAOV, Bool.and_eq_true] at h
    have hlen : (etoks (Expression.Or l r)).length
        = (etoks l).length + (etoks r).length + 3 := by simp [etoks]; omega
    rw [hlen] at hf
    have hlist : etoks (Expression.Or l r) ++ rest
        = Tok.tLParen :: (etoks l ++ (Tok.tOr :: (etoks r ++ (Tok.tRParen :: rest)))) := by
      simp [etoks]
    rw [hlist]
    obtain ⟨f, rfl⟩ : ∃ g, f = g + 1 := ⟨f - 1, by omega⟩
    simp only [parsePrimF]
    obtain ⟨f, rfl⟩ : ∃ g, f = g + 1 := ⟨f - 1, by omega⟩
    simp only [parseExprF]
    obtain ⟨f, rfl⟩ : ∃ g, f = g + 1 := ⟨f - 1, by omega⟩
    simp only [parseOrF]
    obtain ⟨f, rfl⟩ : ∃ g, f = g + 1 := ⟨f - 1, by omega⟩
    simp only [parseAndF]
    obtain ⟨f, rfl⟩ : ∃ g, f = g + 1 := ⟨f - 1, by omega⟩
    simp only [parseNotF]
    have hKl := ihl h.1 (Tok.tOr :: (etoks r ++ (Tok.tRParen :: rest))) f (by omega)
    rcases etoks_head l h.1 with ⟨ts, hts⟩ | ⟨c, ts, hts⟩ <;>
      rw [hts] at hKl ⊢ <;>
      simp only [List.cons_append] at hKl ⊢ <;>
      rw [hKl] <;>
      simp only [andLoopF, orLoopF] <;>
      simp only [parseAndF] <;>
      (obtain ⟨f, rfl⟩ : ∃ g, f = g + 1 := ⟨f - 1, by omega⟩) <;>
      simp only [parseNotF] <;>
      (have hKr := ihr h.2 (Tok.tRParen :: rest) f (by omega)) <;>
      (rcases etoks_head r h.2 with ⟨ts2, hts2⟩ | ⟨c2, ts2, hts2⟩ <;>
        rw [hts2] at hKr ⊢ <;>
        simp only [List.cons_append] at hKr ⊢ <;>
        rw [hKr] <;>
        simp only [andLoopF, orLoopF, impLoopF])
  | Implies l r ihl ihr =>
    intro h
    simp [goodAOV] at h
  | Not e ih =>
    intro h
    simp [goodAOV] at h
  | Var n =>
    intro h rest f hf
    rw [goodAOV] at h
    obtain ⟨d⟩ := n
    obtain ⟨c, hd, hu⟩ := (okName_iff (String.mk d)).mp h
    have hd' : d = [c] := hd
    subst hd'
    have hls : etoks (Expression.Var (String.mk [c])) = [Tok.tVar c] := rfl
    rw [hls] at hf ⊢
    simp only [List.length_cons, List.length_nil] at hf
    obtain ⟨f, rfl⟩ : ∃ g, f = g + 1 := ⟨f - 1, by omega⟩
    simp only [List.cons_append, List.nil_append, parsePrimF]

/-- Top-level version of the round-trip lemma: the whole-expression rule
consumes exactly the rendered token string of a fragment expression. -/
lemma parseExpr_etoks (e : Expression) (h : goodAOV e = true) (f : Nat)
    (hf : 5 * (etoks e).length + 5 ≤ f) :
    parseExprF f (etoks e) = some (e, []) := by
  obtain ⟨f, rfl⟩ : ∃ g, f = g + 1 := ⟨f - 1, by omega⟩
  simp only [parseExprF]
  obtain ⟨f, rfl⟩ : ∃ g, f = g + 1 := ⟨f - 1, by omega⟩
  simp only [parseOrF]
  obtain ⟨f, rfl⟩ : ∃ g, f = g + 1 := ⟨f - 1, by omega⟩
  simp only [parseAndF]
  obtain ⟨f, rfl⟩ : ∃ g, f = g + 1 := ⟨f - 1, by omega⟩
  simp only [parseNotF]
  have hK := parsePrim_etoks e h [] f (by omega)
  rw [List.append_nil] at hK
  rcases etoks_head e h with ⟨ts, hts⟩ | ⟨c, ts, hts⟩ <;>
    (rw [hts] at hK ⊢; dsimp only; rw [hK]; simp only [andLoopF, orLoopF, impLoopF])

/-- Counterexample to claim C6 as stated: rendering emits `~` for Not
and `->` for Implies, characters/sequences the parser's classification
rejects, so round-trip fails on Not(Var A) and on
Implies(Var A, Var B) even though all names are single uppercase
letters. -/
theorem c6_roundtrip_cex :
    parse (display (.Not (.Var "A"))) = none ∧
    parse (display (.Implies (.Var "A") (.Var "B"))) = none := by decide

/-- Claim C6 (amended): for every expression built from And, Or and Var
whose Var names are single uppercase ASCII letters, re-parsing the
canonical rendering succeeds and returns a structurally equal tree.
(As stated the claim fails: rendered Not and Implies use `~` and `->`,
which the parser rejects — see the counterexample.) -/
theorem c6_roundtrip_and_or_var (e : Expression) (h : goodAOV e = true) :
    parse (display e) = some e := by
  show parseChars (display e).data = some e
  unfold parseChars
  rw [tokenize_display e h]
  dsimp only
  rw [parseExpr_etoks e h _ (by omega)]

/-- Witness for the amended C6 at a concrete fragment expression. -/
theorem c6_roundtrip_witness :
    parse (display (Expression.And (.Var "A") (.Or (.Var "B") (.Var "C"))))
      = some (Expression.And (.Var "A") (.Or (.Var "B") (.Var "C"))) :=
  c6_roundtrip_and_or_var _ (by decide)

/-! ## Well-formedness of parser output -/

/-- All variable names in an expression are single uppercase ASCII
letters (in particular, non-empty). -/
def varsOk : Expression → Bool
  | .And l r => varsOk l && varsOk r
  | .Or l r => varsOk l && varsOk r
  | .Implies l r => varsOk l && varsOk r
  | .Not e => varsOk e
  | .Var n => okName n

/-- All variable names in an expression are non-empty. -/
def namesNonEmpty : Expression → Bool
  | .And l r => namesNonEmpty l && namesNonEmpty r
  | .Or l r => namesNonEmpty l && namesNonEmpty r
  | .Implies l r => namesNonEmpty l && namesNonEmpty r
  | .Not e => namesNonEmpty e
  | .Var n => decide (n.data ≠ [])

/-- Every variable token holds an uppercase letter. -/
def upToks (toks : List Tok) : Prop := ∀ c, Tok.tVar c ∈ toks → c.isUpper = true

lemma upToks_of_suffix {a b : List Tok} (h : a <:+ b) (hb : upToks b) : upToks a :=
  fun c hc => hb c (h.subset hc)

lemma tokenize_upToks (cs : List Char) (toks : List Tok) (h : tokenize cs = some toks) :
    upToks toks := by
  induction cs generalizing toks with
  | nil =>
    rw [tokenize] at h
    obtain rfl : [] = toks := by simpa using h
    intro c hc
    simp at hc
  | cons c cs ih =>
    rw [tokenize] at h
    cases htc : tokenize cs with
    | none =>
      rw [htc] at h
      split_ifs at h <;> simp at h
    | some x =>
      rw [htc] at h
      split_ifs at h with h1 h2 h3 h4 h5 h6 h7 h8 <;> simp at h <;> subst h
      · intro c' hc'
        rcases List.mem_cons.mp hc' with hc' | hc'
        · rw [show c' = c by simpa using hc']
          exact h1
        · exact ih x htc c' hc'
      all_goals
        intro c' hc'
        first
        | exact ih x htc c' hc'
        | · rcases List.mem_cons.mp hc' with hc' | hc'
            · simp at hc'
            · exact ih x htc c' hc'

lemma parseExprF_succ (f : Nat) (toks : List Tok) :
    parseExprF (f+1) toks =
      match parseOrF f toks with
      | some (e, rest) => impLoopF f e rest
      | none => none := rfl

lemma impLoopF_succ (f : Nat) (acc : Expression) (toks : List Tok) :
    impLoopF (f+1) acc toks =
      match toks with
      | .tImp :: rest =>
        match parseOrF f rest with
        | some (e, rest2) => impLoopF f (.Implies acc e) rest2
        | none => none
      | _ => some (acc, toks) := rfl

lemma parseOrF_succ (f : Nat) (toks : List Tok) :
    parseOrF (f+1) toks =
      match parseAndF f toks with
      | some (e, rest) => orLoopF f e rest
      | none => none := rfl

lemma orLoopF_succ (f : Nat) (acc : Expression) (toks : List Tok) :
    orLoopF (f+1) acc toks =
      match toks with
      | .tOr :: rest =>
        match parseAndF f rest with
        | some (e, rest2) => orLoopF f (.Or acc e) rest2
        | none => none
      | _ => some (acc, toks) := rfl

lemma parseAndF_succ (f : Nat) (toks : List Tok) :
    parseAndF (f+1) toks =
      match parseNotF f toks with
      | some (e, rest) => andLoopF f e rest
      | none => none := rfl

lemma andLoopF_succ (f : Nat) (acc : Expression) (toks : List Tok) :
    andLoopF (f+1) acc toks =
      match toks with
      | .tAnd :: rest =>
        match parseNotF f rest with
        | some (e, rest2) => andLoopF f (.And acc e) rest2
        | none => none
      | _ => some (acc, toks) := rfl

lemma parseNotF_succ (f : Nat) (toks : List Tok) :
    parseNotF (f+1) toks =
      match toks with
      | .tNot :: rest =>
        match parseNotF f rest with
        | some (e, rest2) => some (.Not e, rest2)
        | none => none
      | _ => parsePrimF f toks := rfl

lemma parsePrimF_succ (f : Nat) (toks : List Tok) :
    parsePrimF (f+1) toks =
      match toks with
      | .tVar c :: rest => some (.Var (String.mk [c]), rest)
      | .tLParen :: rest =>
        match parseExprF f rest with
        | some (e, .tRParen :: rest2) => some (e, rest2)
        | _ => none
      | _ => none := rfl

/-- Soundness of every level of the parser with respect to variable
names: any produced expression has only single-uppercase-letter `Var`
names (when the token stream does), and the unconsumed remainder is a
suffix of the input. -/
lemma parse_sound (f : Nat) :
    (∀ toks e rem, parseExprF f toks = some (e, rem) → upToks toks →
      varsOk e = true ∧ rem <:+ toks) ∧
    (∀ acc toks e rem, impLoopF f acc toks = some (e, rem) → varsOk acc = true →
      upToks toks → varsOk e = true ∧ rem <:+ toks) ∧
    (∀ toks e rem, parseOrF f toks = some (e, rem) → upToks toks →
      varsOk e = true ∧ rem <:+ toks) ∧
    (∀ acc toks e rem, orLoopF f acc toks = some (e, rem) → varsOk acc = true →
      upToks toks → varsOk e = true ∧ rem <:+ toks) ∧
    (∀ toks e rem, parseAndF f toks = some (e, rem) → upToks toks →
      varsOk e = true ∧ rem <:+ toks) ∧
    (∀ acc toks e rem, andLoopF f acc toks = some (e, rem) → varsOk acc = true →
      upToks toks → varsOk e = true ∧ rem <:+ toks) ∧
    (∀ toks e rem, parseNotF f toks = some (e, rem) → upToks toks →
      varsOk e = true ∧ rem <:+ toks) ∧
    (∀ toks e rem, parsePrimF f toks = some (e, rem) → upToks toks →
      varsOk e = true ∧ rem <:+ toks) := by
  induction f with
  | zero =>
    refine ⟨?_, ?_, ?_, ?_, ?_, ?_, ?_, ?_⟩
    · intro toks e rem h
      rw [parseExprF] at h
      simp at h
    · intro acc toks e rem h
      rw [impLoopF] at h
      simp at h
    · intro toks e rem h
      rw [parseOrF] at h
      simp at h
    · intro acc toks e rem h
      rw [orLoopF] at h
      simp at h
    · intro toks e rem h
      rw [parseAndF] at h
      simp at h
    · intro acc toks e rem h
      rw [andLoopF] at h
      simp at h
    · intro toks e rem h
      rw [parseNotF] at h
      simp at h
    · intro toks e rem h
      rw [parsePrimF] at h
      simp at h
  | succ f ih =>
    obtain ⟨ihE, ihIL, ihO, ihOL, ihA, ihAL, ihN, ihP⟩ := ih
    have stepP : ∀ toks e rem, parsePrimF (f+1) toks = some (e, rem) → upToks toks →
        varsOk e = true ∧ rem <:+ toks := by
      intro toks e rem h hok
      rw [parsePrimF_succ] at h
      split at h
      · rename_i c rest
        obtain ⟨rfl, rfl⟩ : Expression.Var (String.mk [c]) = e ∧ rest = rem := by
          simpa using h
        refine ⟨?_, List.suffix_cons _ _⟩
        have hc : c.isUpper = true := hok c (by simp)
        simp [varsOk, okName, hc]
      · rename_i rest
        split at h
        · rename_i e1 rest2 heq
          obtain ⟨rfl, rfl⟩ : e1 = e ∧ rest2 = rem := by simpa using h
          have hok2 : upToks rest := fun c hc => hok c (List.mem_cons_of_mem _ hc)
          obtain ⟨hv, hs⟩ := ihE rest _ _ heq hok2
          exact ⟨hv, (((List.suffix_cons _ _).trans hs).trans (List.suffix_cons _ _))⟩
        · exact absurd h (by simp)
      · exact absurd h (by simp)
    have stepN : ∀ toks e rem, parseNotF (f+1) toks = some (e, rem) → upToks toks →
        varsOk e = true ∧ rem <:+ toks := by
      intro toks e rem h hok
      rw [parseNotF_succ] at h
      split at h
      · rename_i rest
        split at h
        · rename_i e1 rest2 heq
          obtain ⟨rfl, rfl⟩ : Expression.Not e1 = e ∧ rest2 = rem := by simpa using h
          have hok2 : upToks rest := fun c hc => hok c (List.mem_cons_of_mem _ hc)
          obtain ⟨hv, hs⟩ := ihN rest _ _ heq hok2
          exact ⟨by simpa [varsOk] using hv, hs.trans (List.suffix_cons _ _)⟩
        · exact absurd h (by simp)
      · exact ihP toks e rem h hok
    have stepAL : ∀ acc toks e rem, andLoopF (f+1) acc toks = some (e, rem) →
        varsOk acc = true → upToks toks → varsOk e = true ∧ rem <:+ toks := by
      intro acc toks e rem h hacc hok
      rw [andLoopF_succ] at h
      split at h
      · rename_i rest
        split at h
        · rename_i e1 rest2 heq
          have hok2 : upToks rest := fun c hc => hok c (List.mem_cons_of_mem _ hc)
          obtain ⟨hv1, hs1⟩ := ihN rest e1 rest2 heq hok2
          obtain ⟨hv, hs⟩ := ihAL (.And acc e1) rest2 e rem h
            (by simp [varsOk, hacc, hv1]) (upToks_of_suffix hs1 hok2)
          exact ⟨hv, ((hs.trans hs1).trans (List.suffix_cons _ _))⟩
        · exact absurd h (by simp)
      · obtain ⟨rfl, rfl⟩ : acc = e ∧ toks = rem := by simpa using h
        exact ⟨hacc, List.suffix_refl _⟩
    have stepA : ∀ toks e rem, parseAndF (f+1) toks = some (e, rem) → upToks toks →
        varsOk e = true ∧ rem <:+ toks := by
      intro toks e rem h hok
      rw [parseAndF_succ] at h
      split at h
      · rename_i e1 rest heq
        obtain ⟨hv1, hs1⟩ := ihN toks e1 rest heq hok
        obtain ⟨hv, hs⟩ := ihAL e1 rest e rem h hv1 (upToks_of_suffix hs1 hok)
        exact ⟨hv, hs.trans hs1⟩
      · exact absurd h (by simp)
    have stepOL : ∀ acc toks e rem, orLoopF (f+1) acc toks = some (e, rem) →
        varsOk acc = true → upToks toks → varsOk e = true ∧ rem <:+ toks := by
      intro acc toks e rem h hacc hok
      rw [orLoopF_succ] at h
      split at h
      · rename_i rest
        split at h
        · rename_i e1 rest2 heq
          have hok2 : upToks rest := fun c hc => hok c (List.mem_cons_of_mem _ hc)
          obtain ⟨hv1, hs1⟩ := ihA rest e1 rest2 heq hok2
          obtain ⟨hv, hs⟩ := ihOL (.Or acc e1) rest2 e rem h
            (by simp [varsOk, hacc, hv1]) (upToks_of_suffix hs1 hok2)
          exact ⟨hv, ((hs.trans hs1).trans (List.suffix_cons _ _))⟩
        · exact absurd h (by simp)
      · obtain ⟨rfl, rfl⟩ : acc = e ∧ toks = rem := by simpa using h
        exact ⟨hacc, List.suffix_refl _⟩
    have stepO : ∀ toks e rem, parseOrF (f+1) toks = some (e, rem) → upToks toks →
        varsOk e = true ∧ rem <:+ toks := by
      intro toks e rem h hok
      rw [parseOrF_succ] at h
      split at h
      · rename_i e1 rest heq
        obtain ⟨hv1, hs1⟩ := ihA toks e1 rest heq hok
        obtain ⟨hv, hs⟩ := ihOL e1 rest e rem h hv1 (upToks_of_suffix hs1 hok)
        exact ⟨hv, hs.trans hs1⟩
      · exact absurd h (by simp)
    have stepIL : ∀ acc toks e rem, impLoopF (f+1) acc toks = some (e, rem) →
        varsOk acc = true → upToks toks → varsOk e = true ∧ rem <:+ toks := by
      intro acc toks e rem h hacc hok
      rw [impLoopF_succ] at h
      split at h
      · rename_i rest
        split at h
        · rename_i e1 rest2 heq
          have hok2 : upToks rest := fun c hc => hok c (List.mem_cons_of_mem _ hc)
          obtain ⟨hv1, hs1⟩ := ihO rest e1 rest2 heq hok2
          obtain ⟨hv, hs⟩ := ihIL (.Implies acc e1) rest2 e rem h
            (by simp [varsOk, hacc, hv1]) (upToks_of_suffix hs1 hok2)
          exact ⟨hv, ((hs.trans hs1).trans (List.suffix_cons _ _))⟩
        · exact absurd h (by simp)
      · obtain ⟨rfl, rfl⟩ : acc = e ∧ toks = rem := by simpa using h
        exact ⟨hacc, List.suffix_refl _⟩
    have stepE : ∀ toks e rem, parseExprF (f+1) toks = some (e, rem) → upToks toks →
        varsOk e = true ∧ rem <:+ toks := by
      intro toks e rem h hok
      rw [parseExprF_succ] at h
      split at h
      · rename_i e1 rest heq
        obtain ⟨hv1, hs1⟩ := ihO toks e1 rest heq hok
        obtain ⟨hv, hs⟩ := ihIL e1 rest e rem h hv1 (upToks_of_suffix hs1 hok)
        exact ⟨hv, hs.trans hs1⟩
      · exact absurd h (by simp)
    exact ⟨stepE, stepIL, stepO, stepOL, stepA, stepAL, stepN, stepP⟩

/-- Any successfully parsed expression has only single-uppercase-letter
variable names. -/
lemma parse_varsOk (s : String) (e : Expression) (h : parse s = some e) :
    varsOk e = true := by
  rw [parse, parseChars] at h
  split at h
  · next toks heq =>
    split at h
    · next e1 heq2 =>
      obtain rfl : e1 = e := by simpa using h
      exact ((parse_sound _).1 toks _ _ heq2 (tokenize_upToks _ _ heq)).1
    · exact absurd h (by simp)
  · exact absurd h (by simp)

lemma varsOk_namesNonEmpty (e : Expression) (h : varsOk e = true) :
    namesNonEmpty e = true := by
  induction e with
  | And l r ihl ihr =>
    rw [varsOk, Bool.and_eq_true] at h
    simp [namesNonEmpty, ihl h.1, ihr h.2]
  | Or l r ihl ihr =>
    rw [varsOk, Bool.and_eq_true] at h
    simp [namesNonEmpty, ihl h.1, ihr h.2]
  | Implies l r ihl ihr =>
    rw [varsOk, Bool.and_eq_true] at h
    simp [namesNonEmpty, ihl h.1, ihr h.2]
  | Not e ih =>
    rw [varsOk] at h
    simp [namesNonEmpty, ih h]
  | Var n =>
    rw [varsOk] at h
    obtain ⟨c, hd, _⟩ := (okName_iff n).mp h
    simp [namesNonEmpty, hd]

/-- Counterexample to claim C7 as stated: the builder `var` performs no
validation, so `var ""` — reachable through the public construction
operations — is a `Var` node with an empty name. -/
theorem c7_invariant_cex :
    var "" = Expression.Var "" ∧ namesNonEmpty (var "") = false :=
  ⟨rfl, by decide⟩

/-- Claim C7 (amended): arity invariants hold for every expression by
the type's construction; every expression produced by parsing has only
single-uppercase-letter (hence non-empty) `Var` names; but the builder
`var` stores its argument verbatim, so the non-empty-name invariant
does not extend to builder-constructed expressions (see the
counterexample `var ""`). -/
theorem c7_parse_wellformed (s : String) (e : Expression) (h : parse s = some e) :
    varsOk e = true ∧ namesNonEmpty e = true :=
  ⟨parse_varsOk s e h, varsOk_namesNonEmpty e (parse_varsOk s e h)⟩

/-- Witness for the amended C7 at a concrete parse. -/
theorem c7_parse_wellformed_witness :
    varsOk (Expression.Var "A") = true ∧ namesNonEmpty (Expression.Var "A") = true :=
  c7_parse_wellformed "A" (Expression.Var "A") (by decide)

/-- Claim C9: the builder `var` stores any string verbatim with no
validation (empty, multi-character, lowercase names all accepted — the
`declare!` macro stringifies lowercase identifiers), so expressions
such as Var "ab", Var "a" or Var "" render to text the parser rejects;
round-trip of a bare variable holds exactly for the single
uppercase letters. -/
theorem c9_var_unvalidated :
    (∀ s : String, var s = Expression.Var s) ∧
    display (var "ab") = "ab" ∧ parse (display (var "ab")) = none ∧
    display (var "a") = "a" ∧ parse (display (var "a")) = none ∧
    display (var "") = "" ∧ parse (display (var "")) = none ∧
    (ucLetters.all fun c =>
      parse (display (var (String.mk [c]))) == some (Expression.Var (String.mk [c]))) = true :=
  ⟨fun _ => rfl, rfl, by decide, rfl, by decide, rfl, by decide, by decide⟩

/-! ## Pointer-level model of `Rc` sharing (for claim C8)

In the source each `Expression` child is an `Rc<Expression>` pointer and
subtrees may be shared. A heap is a list of nodes whose children are
indices of earlier cells (children are allocated before their parents,
so `Rc` graphs are acyclic); distinct parents may point at one shared
cell or at separate structurally equal cells. `heapEq` mirrors the
derived `PartialEq`, which dereferences `Rc`s and compares variants and
children recursively. -/

/-- A pointer-level AST node: children are heap indices. -/
inductive HNode where
  | hAnd : Nat → Nat → HNode
  | hOr : Nat → Nat → HNode
  | hImp : Nat → Nat → HNode
  | hNot : Nat → HNode
  | hVar : String → HNode
deriving DecidableEq

/-- Children of a node point strictly below the node's own index. -/
def nodeOk : HNode → Nat → Bool
  | .hAnd l r, i => decide (l < i) && decide (r < i)
  | .hOr l r, i => decide (l < i) && decide (r < i)
  | .hImp l r, i => decide (l < i) && decide (r < i)
  | .hNot e, i => decide (e < i)
  | .hVar _, _ => true

/-- A well-formed heap: every cell's children point to earlier cells. -/
def heapWF (h : List HNode) : Bool :=
  (List.range h.length).all fun i =>
    match h[i]? with
    | some n => nodeOk n i
    | none => true

/-- Read back the tree that a heap cell denotes (fuel-indexed; on a
well-formed heap, fuel `i + 1` always suffices for cell `i`). -/
def denoteF : Nat → List HNode → Nat → Option Expression
  | 0, _, _ => none
  | f+1, h, i =>
    match h[i]? with
    | some (.hAnd l r) =>
      match denoteF f h l, denoteF f h r with
      | some a, some b => some (.And a b)
      | _, _ => none
    | some (.hOr l r) =>
      match denoteF f h l, denoteF f h r with
      | some a, some b => some (.Or a b)
      | _, _ => none
    | some (.hImp l r) =>
      match denoteF f h l, denoteF f h r with
      | some a, some b => some (.Implies a b)
      | _, _ => none
    | some (.hNot e) =>
      match denoteF f h e with
      | some a => some (.Not a)
      | none => none
    | some (.hVar s) => some (.Var s)
    | none => none

/-- The tree denoted by heap cell `i`. -/
def denote (h : List HNode) (i : Nat) : Option Expression := denoteF (i+1) h i

/-- The derived `PartialEq` on pointer graphs: compare variants, then
recursively compare the dereferenced children; pointer identity is
never consulted. -/
def heapEqF : Nat → List HNode → Nat → Nat → Bool
  | 0, _, _, _ => false
  | f+1, h, i, j =>
    match h[i]?, h[j]? with
    | some (.hAnd l1 r1), some (.hAnd l2 r2) => heapEqF f h l1 l2 && heapEqF f h r1 r2
    | some (.hOr l1 r1), some (.hOr l2 r2) => heapEqF f h l1 l2 && heapEqF f h r1 r2
    | some (.hImp l1 r1), some (.hImp l2 r2) => heapEqF f h l1 l2 && heapEqF f h r1 r2
    | some (.hNot e1), some (.hNot e2) => heapEqF f h e1 e2
    | some (.hVar s1), some (.hVar s2) => s1 == s2
    | _, _ => false

/-- Equality test between two heap cells (fuel `i + j + 1` suffices). -/
def heapEq (h : List HNode) (i j : Nat) : Bool := heapEqF (i + j + 1) h i j

/-- Structural equality on trees, mirroring the derived `PartialEq` of
`src/expression.rs`: same variant and recursively equal children; `Var`
compares the stored names. -/
def structEq : Expression → Expression → Bool
  | .And l1 r1, .And l2 r2 => structEq l1 l2 && structEq r1 r2
  | .Or l1 r1, .Or l2 r2 => structEq l1 l2 && structEq r1 r2
  | .Implies l1 r1, .Implies l2 r2 => structEq l1 l2 && structEq r1 r2
  | .Not e1, .Not e2 => structEq e1 e2
  | .Var n1, .Var n2 => n1 == n2
  | _, _ => false

lemma structEq_iff : ∀ a b : Expression, structEq a b = true ↔ a = b := by
  intro a
  induction a with
  | And l r ihl ihr => intro b; cases b <;> simp [structEq, ihl, ihr]
  | Or l r ihl ihr => intro b; cases b <;> simp [structEq, ihl, ihr]
  | Implies l r ihl ihr => intro b; cases b <;> simp [structEq, ihl, ihr]
  | Not e ih => intro b; cases b <;> simp [structEq, ih]
  | Var n => intro b; cases b <;> simp [structEq]

lemma heapWF_nodeOk {h : List HNode} (hw : heapWF h = true) {i : Nat} {n : HNode}
    (hi : h[i]? = some n) : nodeOk n i = true := by
  have hlen : i < h.length := by
    by_contra hc
    rw [List.getElem?_eq_none (by omega)] at hi
    simp at hi
  rw [heapWF, List.all_eq_true] at hw
  have hmem := hw i (List.mem_range.mpr hlen)
  rw [hi] at hmem
  exact hmem

lemma denoteF_mono : ∀ f f' : Nat, f ≤ f' → ∀ (h : List HNode) (i : Nat) (e : Expression),
    denoteF f h i = some e → denoteF f' h i = some e := by
  intro f
  induction f with
  | zero =>
    intro f' _ h i e hd
    rw [denoteF] at hd
    simp at hd
  | succ f ih =>
    intro f' hle h i e hd
    obtain ⟨f', rfl⟩ : ∃ g, f' = g + 1 := ⟨f' - 1, by omega⟩
    rw [denoteF] at hd ⊢
    cases hi : h[i]? with
    | none => simp [hi] at hd
    | some n =>
      simp only [hi] at hd ⊢
      cases n with
      | hAnd l r =>
        cases hl : denoteF f h l with
        | none => simp [hl] at hd
        | some a =>
          cases hr : denoteF f h r with
          | none => simp [hl, hr] at hd
          | some b =>
            simp only [hl, hr] at hd
            simp only [Option.some.injEq] at hd
            subst hd
            simp [ih f' (by omega) h l a hl, ih f' (by omega) h r b hr]
      | hOr l r =>
        cases hl : denoteF f h l with
        | none => simp [hl] at hd
        | some a =>
          cases hr : denoteF f h r with
          | none => simp [hl, hr] at hd
          | some b =>
            simp only [hl, hr] at hd
            simp only [Option.some.injEq] at hd
            subst hd
            simp [ih f' (by omega) h l a hl, ih f' (by omega) h r b hr]
      | hImp l r =>
        cases hl : denoteF f h l with
        | none => simp [hl] at hd
        | some a =>
          cases hr : denoteF f h r with
          | none => simp [hl, hr] at hd
          | some b =>
            simp only [hl, hr] at hd
            simp only [Option.some.injEq] at hd
            subst hd
            simp [ih f' (by omega) h l a hl, ih f' (by omega) h r b hr]
      | hNot e1 =>
        cases hl : denoteF f h e1 with
        | none => simp [hl] at hd
        | some a =>
          simp only [hl] at hd
          simp only [Option.some.injEq] at hd
          subst hd
          simp [ih f' (by omega) h e1 a hl]
      | hVar s => exact hd

lemma denote_total (h : List HNode) (hw : heapWF h = true) :
    ∀ i, i < h.length → ∃ e, denoteF (i+1) h i = some e := by
  intro i
  induction i using Nat.strong_induction_on with
  | _ i ih =>
    intro hlen
    cases hi : h[i]? with
    | none =>
      rw [List.getElem?_eq_getElem hlen] at hi
      simp at hi
    | some n =>
      have hok := heapWF_nodeOk hw hi
      cases n with
      | hAnd l r =>
        rw [nodeOk, Bool.and_eq_true, decide_eq_true_eq, decide_eq_true_eq] at hok
        obtain ⟨a, ha⟩ := ih l (by omega) (by omega)
        obtain ⟨b, hb⟩ := ih r (by omega) (by omega)
        have ha2 := denoteF_mono (l+1) i (by omega) h l a ha
        have hb2 := denoteF_mono (r+1) i (by omega) h r b hb
        refine ⟨.And a b, ?_⟩
        rw [denoteF]
        simp [hi, ha2, hb2]
      | hOr l r =>
        rw [nodeOk, Bool.and_eq_true, decide_eq_true_eq, decide_eq_true_eq] at hok
        obtain ⟨a, ha⟩ := ih l (by omega) (by omega)
        obtain ⟨b, hb⟩ := ih r (by omega) (by omega)
        have ha2 := denoteF_mono (l+1) i (by omega) h l a ha
        have hb2 := denoteF_mono (r+1) i (by omega) h r b hb
        refine ⟨.Or a b, ?_⟩
        rw [denoteF]
        simp [hi, ha2, hb2]
      | hImp l r =>
        rw [nodeOk, Bool.and_eq_true, decide_eq_true_eq, decide_eq_true_eq] at hok
        obtain ⟨a, ha⟩ := ih l (by omega) (by omega)
        obtain ⟨b, hb⟩ := ih r (by omega) (by omega)
        have ha2 := denoteF_mono (l+1) i (by omega) h l a ha
        have hb2 := denoteF_mono (r+1) i (by omega) h r b hb
        refine ⟨.Implies a b, ?_⟩
        rw [denoteF]
        simp [hi, ha2, hb2]
      | hNot e1 =>
        rw [nodeOk, decide_eq_true_eq] at hok
        obtain ⟨a, ha⟩ := ih e1 (by omega) (by omega)
        have ha2 := denoteF_mono (e1+1) i (by omega) h e1 a ha
        refine ⟨.Not a, ?_⟩
        rw [denoteF]
        simp [hi, ha2]
      | hVar s =>
        refine ⟨.Var s, ?_⟩
        rw [denoteF]
        simp [hi]

lemma denote_hAnd {h : List HNode} (hw : heapWF h = true) {i l r : Nat}
    (hi : i < h.length) (hni : h[i]? = some (.hAnd l r)) :
    ∃ a b, denote h i = some (.And a b) ∧ denote h l = some a ∧ denote h r = some b := by
  have hok := heapWF_nodeOk hw hni
  rw [nodeOk, Bool.and_eq_true, decide_eq_true_eq, decide_eq_true_eq] at hok
  obtain ⟨a, ha⟩ := denote_total h hw l (by omega)
  obtain ⟨b, hb⟩ := denote_total h hw r (by omega)
  have ha2 := denoteF_mono (l+1) i (by omega) h l a ha
  have hb2 := denoteF_mono (r+1) i (by omega) h r b hb
  refine ⟨a, b, ?_, ha, hb⟩
  rw [denote, denoteF]
  simp [hni, ha2, hb2]

lemma denote_hOr {h : List HNode} (hw : heapWF h = true) {i l r : Nat}
    (hi : i < h.length) (hni : h[i]? = some (.hOr l r)) :
    ∃ a b, denote h i = some (.Or a b) ∧ denote h l = some a ∧ denote h r = some b := by
  have hok := heapWF_nodeOk hw hni
  rw [nodeOk, Bool.and_eq_true, decide_eq_true_eq, decide_eq_true_eq] at hok
  obtain ⟨a, ha⟩ := denote_total h hw l (by omega)
  obtain ⟨b, hb⟩ := denote_total h hw r (by omega)
  have ha2 := denoteF_mono (l+1) i (by omega) h l a ha
  have hb2 := denoteF_mono (r+1) i (by omega) h r b hb
  refine ⟨a, b, ?_, ha, hb⟩
  rw [denote, denoteF]
  simp [hni, ha2, hb2]

lemma denote_hImp {h : List HNode} (hw : heapWF h = true) {i l r : Nat}
    (hi : i < h.length) (hni : h[i]? = some (.hImp l r)) :
    ∃ a b, denote h i = some (.Implies a b) ∧ denote h l = some a ∧ denote h r = some b := by
  have hok := heapWF_nodeOk hw hni
  rw [nodeOk, Bool.and_eq_true, decide_eq_true_eq, decide_eq_true_eq] at hok
  obtain ⟨a, ha⟩ := denote_total h hw l (by omega)
  obtain ⟨b, hb⟩ := denote_total h hw r (by omega)
  have ha2 := denoteF_mono (l+1) i (by omega) h l a ha
  have hb2 := denoteF_mono (r+1) i (by omega) h r b hb
  refine ⟨a, b, ?_, ha, hb⟩
  rw [denote, denoteF]
  simp [hni, ha2, hb2]

lemma denote_hNot {h : List HNode} (hw : heapWF h = true) {i e1 : Nat}
    (hi : i < h.length) (hni : h[i]? = some (.hNot e1)) :
    ∃ a, denote h i = some (.Not a) ∧ denote h e1 = some a := by
  have hok := heapWF_nodeOk hw hni
  rw [nodeOk, decide_eq_true_eq] at hok
  obtain ⟨a, ha⟩ := denote_total h hw e1 (by omega)
  have ha2 := denoteF_mono (e1+1) i (by omega) h e1 a ha
  refine ⟨a, ?_, ha⟩
  rw [denote, denoteF]
  simp [hni, ha2]

lemma denote_hVar {h : List HNode} {i : Nat} {s : String}
    (hni : h[i]? = some (.hVar s)) : denote h i = some (.Var s) := by
  rw [denote, denoteF]
  simp [hni]

/-- Discriminant of a heap node's variant. -/
def nodeKind : HNode → Nat
  | .hAnd _ _ => 0
  | .hOr _ _ => 1
  | .hImp _ _ => 2
  | .hNot _ => 3
  | .hVar _ => 4

/-- Discriminant of a tree node's variant. -/
def exprKind : Expression → Nat
  | .And _ _ => 0
  | .Or _ _ => 1
  | .Implies _ _ => 2
  | .Not _ => 3
  | .Var _ => 4

lemma denote_kind {h : List HNode} (hw : heapWF h = true) {i : Nat} {n : HNode}
    (hi : i < h.length) (hni : h[i]? = some n) :
    ∃ e, denote h i = some e ∧ exprKind e = nodeKind n := by
  cases n with
  | hAnd l r =>
    obtain ⟨a, b, hd, _, _⟩ := denote_hAnd hw hi hni
    exact ⟨_, hd, rfl⟩
  | hOr l r =>
    obtain ⟨a, b, hd, _, _⟩ := denote_hOr hw hi hni
    exact ⟨_, hd, rfl⟩
  | hImp l r =>
    obtain ⟨a, b, hd, _, _⟩ := denote_hImp hw hi hni
    exact ⟨_, hd, rfl⟩
  | hNot e1 =>
    obtain ⟨a, hd, _⟩ := denote_hNot hw hi hni
    exact ⟨_, hd, rfl⟩
  | hVar s => exact ⟨_, denote_hVar hni, rfl⟩

/-- Pointer-graph equality agrees with structural equality of the
denoted trees, for every well-formed heap and pair of valid roots —
whether or not any subgraphs are shared. -/
lemma heapEqF_correct (h : List HNode) (hw : heapWF h = true) :
    ∀ f i j, i + j < f → i < h.length → j < h.length →
      (heapEqF f h i j = true ↔ denote h i = denote h j) := by
  intro f
  induction f with
  | zero =>
    intro i j hij hi hj
    omega
  | succ f ih =>
    intro i j hij hi hj
    obtain ⟨ni, hni⟩ : ∃ n, h[i]? = some n := ⟨_, List.getElem?_eq_getElem hi⟩
    obtain ⟨nj, hnj⟩ : ∃ n, h[j]? = some n := ⟨_, List.getElem?_eq_getElem hj⟩
    have hoki := heapWF_nodeOk hw hni
    have hokj := heapWF_nodeOk hw hnj
    cases ni <;> cases nj
    case hAnd.hAnd l1 r1 l2 r2 =>
      rw [nodeOk, Bool.and_eq_true, decide_eq_true_eq, decide_eq_true_eq] at hoki hokj
      obtain ⟨a1, b1, hdi, ha1, hb1⟩ := denote_hAnd hw hi hni
      obtain ⟨a2, b2, hdj, ha2, hb2⟩ := denote_hAnd hw hj hnj
      have ih1 := ih l1 l2 (by omega) (by omega) (by omega)
      have ih2 := ih r1 r2 (by omega) (by omega) (by omega)
      rw [heapEqF]
      simp [hni, hnj, hdi, hdj, Bool.and_eq_true, ih1, ih2, ha1, ha2, hb1, hb2]
    case hOr.hOr l1 r1 l2 r2 =>
      rw [nodeOk, Bool.and_eq_true, decide_eq_true_eq, decide_eq_true_eq] at hoki hokj
      obtain ⟨a1, b1, hdi, ha1, hb1⟩ := denote_hOr hw hi hni
      obtain ⟨a2, b2, hdj, ha2, hb2⟩ := denote_hOr hw hj hnj
      have ih1 := ih l1 l2 (by omega) (by omega) (by omega)
      have ih2 := ih r1 r2 (by omega) (by omega) (by omega)
      rw [heapEqF]
      simp [hni, hnj, hdi, hdj, Bool.and_eq_true, ih1, ih2, ha1, ha2, hb1, hb2]
    case hImp.hImp l1 r1 l2 r2 =>
      rw [nodeOk, Bool.and_eq_true, decide_eq_true_eq, decide_eq_true_eq] at hoki hokj
      obtain ⟨a1, b1, hdi, ha1, hb1⟩ := denote_hImp hw hi hni
      obtain ⟨a2, b2, hdj, ha2, hb2⟩ := denote_hImp hw hj hnj
      have ih1 := ih l1 l2 (by omega) (by omega) (by omega)
      have ih2 := ih r1 r2 (by omega) (by omega) (by omega)
      rw [heapEqF]
      simp [hni, hnj, hdi, hdj, Bool.and_eq_true, ih1, ih2, ha1, ha2, hb1, hb2]
    case hNot.hNot e1 e2 =>
      rw [nodeOk, decide_eq_true_eq] at hoki hokj
      obtain ⟨a1, hdi, ha1⟩ := denote_hNot hw hi hni
      obtain ⟨a2, hdj, ha2⟩ := denote_hNot hw hj hnj
      have ih1 := ih e1 e2 (by omega) (by omega) (by omega)
      rw [heapEqF]
      simp [hni, hnj, hdi, hdj, ih1, ha1, ha2]
    case hVar.hVar s1 s2 =>
      have hdi := denote_hVar hni
      have hdj := denote_hVar hnj
      rw [heapEqF]
      simp [hni, hnj, hdi, hdj]
    all_goals
      obtain ⟨e1, hdi, hk1⟩ := denote_kind hw hi hni
    all_goals
      obtain ⟨e2, hdj, hk2⟩ := denote_kind hw hj hnj
    all_goals
      rw [heapEqF]
    all_goals
      simp [hni, hnj, hdi, hdj]
    all_goals
      intro hcon
    all_goals
      rw [← hcon] at hk2
    all_goals
      rw [hk1] at hk2
    all_goals
      simp [nodeKind] at hk2

/-- Claim C8: equality on `Expression` is structural deep value
equality — two expressions compare equal exactly when they have the same
variant and recursively equal children — and, at the pointer level, the
derived comparison of `Rc` graphs agrees with equality of the denoted
trees regardless of whether subtrees are shared cells or distinct
allocations: pointer identity never enters the comparison. -/
theorem c8_structural_equality :
    (∀ a b : Expression, structEq a b = true ↔ a = b) ∧
    (∀ (h : List HNode) (i j : Nat), heapWF h = true → i < h.length → j < h.length →
      (heapEq h i j = true ↔ denote h i = denote h j)) :=
  ⟨structEq_iff,
   fun h i j hw hi hj => heapEqF_correct h hw (i + j + 1) i j (by omega) hi hj⟩

/-- Witness for C8 on a concrete heap: cell 1 is And sharing one `Var`
cell for both children, cell 4 is And over two distinct `Var`
allocations; the derived comparison and denotation equality agree. -/
theorem c8_structural_equality_witness :
    (structEq (Expression.And (.Var "A") (.Var "B")) (Expression.And (.Var "A") (.Var "B")) = true ↔
      Expression.And (.Var "A") (.Var "B") = Expression.And (.Var "A") (.Var "B")) ∧
    (heapEq [HNode.hVar "A", .hAnd 0 0, .hVar "A", .hVar "A", .hAnd 2 3] 1 4 = true ↔
      denote [HNode.hVar "A", .hAnd 0 0, .hVar "A", .hVar "A", .hAnd 2 3] 1 =
        denote [HNode.hVar "A", .hAnd 0 0, .hVar "A", .hVar "A", .hAnd 2 3] 4) :=
  ⟨c8_structural_equality.1 _ _,
   c8_structural_equality.2 _ 1 4 (by decide) (by decide) (by decide)⟩

end PropLogic
